import Mathlib

/-!
Shallow embedding of the distance-matrix notebook
(`2dv516-python-2-part-2-threads.ipynb`).

Vectors are lists of rationals (exact arithmetic stands in for the
notebook's numeric values); the Euclidean distance takes a real square
root.  Matrices are lists of lists of reals, allocated as a zero square
matrix and then filled by index assignments, exactly like the source's
`empty_square_matrix` / nested-loop fill.
-/

namespace Dv516

/-- A dataset row: one numeric vector. -/
abbrev Vec := List ℚ

/-- A distance matrix: list of rows of real entries. -/
abbrev Mat := List (List ℝ)

/-- The sum `sum([(x_ - y_)**2 for x_, y_ in zip(x, y)])` from `eucl_dist`:
squared elementwise differences over `zip x y` (which truncates to the
shorter list, as Python's `zip` does). -/
def sq_sum_zip (x y : Vec) : ℚ :=
  ((x.zip y).map (fun p => (p.1 - p.2) ^ 2)).sum

/-- `eucl_dist(x, y) = sqrt(sum([(x_ - y_)**2 for x_, y_ in zip(x, y)]))`. -/
noncomputable def eucl_dist (x y : Vec) : ℝ :=
  Real.sqrt ((sq_sum_zip x y : ℚ) : ℝ)

/-- `empty_square_matrix(n)`: the source appends `0` to each of `n` rows
`n` times, producing the `n × n` zero matrix. -/
def empty_square_matrix (n : ℕ) : Mat :=
  List.replicate n (List.replicate n (0 : ℝ))

/-- The assignment `D[i][j] = v`: replace entry `j` of row `i`
(out-of-range indices leave `D` unchanged, which never happens in the
source's loops). -/
def setEntry (D : Mat) (i j : ℕ) (v : ℝ) : Mat :=
  D.set i ((D.getD i []).set j v)

/-- Reading `D[i][j]` (with a default of `0` out of range). -/
def getEntry (D : Mat) (i j : ℕ) : ℝ :=
  (D.getD i []).getD j 0

/-- One iteration of the fill loops: `D[i][j] = eucl_dist(X[i], X[j])`. -/
noncomputable def fill_entry (X : List Vec) (D : Mat) (i j : ℕ) : Mat :=
  setEntry D i j (eucl_dist (X.getD i []) (X.getD j []))

/-- `eucl_dist_matrix(X)`: allocate `empty_square_matrix(n)` and fill it
with `for i in range(n): for j in range(n): D[i][j] = eucl_dist(X[i], X[j])`. -/
noncomputable def eucl_dist_matrix (X : List Vec) : Mat :=
  (List.range X.length).foldl
    (fun D i => (List.range X.length).foldl (fun D j => fill_entry X D i j) D)
    (empty_square_matrix X.length)

/-- `eucl_dist_matrix_shuffled(X)`: same fill, but the source draws the
row order and, for each row, a fresh column order with
`random.sample(range(n), k=n)`.  The random draws are modelled as
explicit parameters: a row visit order `rowOrder` and a column visit
order `colOrder i` for each row `i`. -/
noncomputable def eucl_dist_matrix_shuffled
    (X : List Vec) (rowOrder : List ℕ) (colOrder : ℕ → List ℕ) : Mat :=
  rowOrder.foldl
    (fun D i => (colOrder i).foldl (fun D j => fill_entry X D i j) D)
    (empty_square_matrix X.length)

/-- Row `k` of `cdist(X[i:i+c], X)`: the full vector of distances from
`X[k]` to every row of `X` (the source's rows all have equal length
there, so `cdist`'s Euclidean distance coincides with `eucl_dist`). -/
noncomputable def cdist_row (X : List Vec) (k : ℕ) : List ℝ :=
  (List.range X.length).map (fun j => eucl_dist (X.getD k []) (X.getD j []))

/-- `task_4(D, X, i, chunk_size)`: the slice assignment
`D[i:i+chunk_size] = cdist(X[i:i+chunk_size], X)` replaces each row `k`
with `i ≤ k < min (i+chunk_size) n` by its distance row (numpy clips the
slice at `n`). -/
noncomputable def task_4 (D : Mat) (X : List Vec) (i c : ℕ) : Mat :=
  (List.range' i (min (i + c) X.length - i)).foldl
    (fun D k => D.set k (cdist_row X k)) D

/-- Python's `range(0, n, c)` for a positive step `c`:
`[0, c, 2*c, ...]` while below `n`, i.e. `ceil(n / c)` many starts. -/
def rangeStep (n c : ℕ) : List ℕ :=
  (List.range ((n + c - 1) / c)).map (· * c)

/-- `eucl_dist_matrix_thr_4(X, n_jobs)`: `chunk_size = n // n_jobs`; when
that is `0` (empty dataset or `n_jobs > n`; also `n_jobs = 0`, where
Python raises `ZeroDivisionError`) the call `range(0, n, 0)` raises
`ValueError`, modelled as `none`.  Otherwise each chunk start spawns a
thread running `task_4`; the threads share `D = np.zeros((n, n))`, write
disjoint row slices and are all joined before `D` is returned, so the
result equals running the chunk tasks in sequence. -/
noncomputable def eucl_dist_matrix_thr_4 (X : List Vec) (n_jobs : ℕ) : Option Mat :=
  if X.length / n_jobs = 0 then none
  else some ((rangeStep X.length (X.length / n_jobs)).foldl
    (fun D i => task_4 D X i (X.length / n_jobs))
    (empty_square_matrix X.length))

/-- `eucl_dist_matrix_p(X)`: `chunk_size = n // 8`; when `n < 8` the call
`range(0, n, 0)` raises `ValueError`, modelled as `none`.  Otherwise the
workers are `multiprocessing.Process` children: each receives a copy of
`D`, writes distances into its copy, and the parent's `D` is never
updated, so after joining the parent returns its untouched zero matrix. -/
def eucl_dist_matrix_p (X : List Vec) : Option Mat :=
  if X.length / 8 = 0 then none
  else some (empty_square_matrix X.length)

/-- All rows of the dataset have equal length. -/
def uniformLen (X : List Vec) : Prop :=
  ∀ r ∈ X, r.length = (X.headD []).length

instance (X : List Vec) : Decidable (uniformLen X) := by
  unfold uniformLen; infer_instance

/-- `D` is an `n × n` matrix. -/
def isSquare (n : ℕ) (D : Mat) : Prop :=
  D.length = n ∧ ∀ r ∈ D, r.length = n

theorem isSquare_empty (n : ℕ) : isSquare n (empty_square_matrix n) := by
  refine ⟨by simp [empty_square_matrix], ?_⟩
  intro r hr
  have hr' : r ∈ List.replicate n (List.replicate n (0 : ℝ)) := hr
  rw [List.eq_of_mem_replicate hr']
  simp

theorem getD_set_self {α : Type} (l : List α) (i : ℕ) (v d : α) (h : i < l.length) :
    (l.set i v).getD i d = v := by
  induction l generalizing i with
  | nil => simp at h
  | cons a l ih =>
    cases i with
    | zero => rfl
    | succ i => exact ih i (by simpa using h)

theorem getD_set_ne {α : Type} (l : List α) (i j : ℕ) (v d : α) (h : j ≠ i) :
    (l.set i v).getD j d = l.getD j d := by
  induction l generalizing i j with
  | nil => rfl
  | cons a l ih =>
    cases i with
    | zero =>
      cases j with
      | zero => exact absurd rfl h
      | succ j => rfl
    | succ i =>
      cases j with
      | zero => rfl
      | succ j => exact ih i j (by omega)

theorem getD_replicate_ite {α : Type} (n i : ℕ) (a d : α) :
    (List.replicate n a).getD i d = if i < n then a else d := by
  induction n generalizing i with
  | zero => simp [List.getD_nil]
  | succ n ih =>
    cases i with
    | zero => simp [List.replicate_succ]
    | succ i =>
      rw [List.replicate_succ, List.getD_cons_succ, ih]
      simp only [Nat.succ_lt_succ_iff]

theorem getEntry_empty (n i j : ℕ) : getEntry (empty_square_matrix n) i j = 0 := by
  unfold getEntry empty_square_matrix
  rw [getD_replicate_ite]
  split_ifs with hi
  · rw [getD_replicate_ite]
    split_ifs <;> rfl
  · rfl

theorem getD_mem_of_lt {α : Type} (l : List α) (i : ℕ) (d : α) (h : i < l.length) :
    l.getD i d ∈ l := by
  rw [List.getD_eq_getElem?_getD, List.getElem?_eq_getElem h]
  exact List.getElem_mem h

theorem isSquare_setEntry {n : ℕ} {D : Mat} (h : isSquare n D) (i j : ℕ) (v : ℝ) :
    isSquare n (setEntry D i j v) := by
  obtain ⟨hlen, hrow⟩ := h
  rcases lt_or_le i D.length with hi | hi
  · refine ⟨by simpa [setEntry] using hlen, ?_⟩
    intro r hr
    rcases List.mem_or_eq_of_mem_set hr with hmem | heq
    · exact hrow r hmem
    · subst heq
      rw [List.length_set]
      exact hrow _ (getD_mem_of_lt D i [] hi)
  · rw [setEntry, List.set_eq_of_length_le hi]
    exact ⟨hlen, hrow⟩

theorem getEntry_setEntry_self {n : ℕ} {D : Mat} (h : isSquare n D)
    {i j : ℕ} (hi : i < n) (hj : j < n) (v : ℝ) :
    getEntry (setEntry D i j v) i j = v := by
  obtain ⟨hlen, hrow⟩ := h
  have hi' : i < D.length := by omega
  have hrlen : (D.getD i []).length = n := hrow _ (getD_mem_of_lt D i [] hi')
  unfold getEntry setEntry
  rw [getD_set_self D i _ [] hi', getD_set_self _ j _ 0 (by omega)]

theorem getEntry_setEntry_ne {D : Mat} {i j i' j' : ℕ}
    (hne : i' ≠ i ∨ j' ≠ j) (v : ℝ) :
    getEntry (setEntry D i j v) i' j' = getEntry D i' j' := by
  unfold getEntry setEntry
  rcases eq_or_ne i' i with rfl | hii
  · have hjj : j' ≠ j := by tauto
    rcases lt_or_le i' D.length with hi | hi
    · rw [getD_set_self D i' _ [] hi, getD_set_ne _ j j' v 0 hjj]
    · rw [List.set_eq_of_length_le hi]
  · rw [getD_set_ne D i i' _ [] hii]

theorem isSquare_fill_entry {n : ℕ} {D : Mat} (h : isSquare n D)
    (X : List Vec) (i j : ℕ) : isSquare n (fill_entry X D i j) :=
  isSquare_setEntry h i j _

theorem isSquare_foldl_cols {n : ℕ} (X : List Vec) (i : ℕ) (js : List ℕ)
    {D : Mat} (h : isSquare n D) :
    isSquare n (js.foldl (fun D j => fill_entry X D i j) D) := by
  induction js generalizing D with
  | nil => exact h
  | cons j js ih => exact ih (isSquare_fill_entry h X i j)

theorem getEntry_foldl_cols (X : List Vec) (i : ℕ) (js : List ℕ) {n : ℕ}
    {D : Mat} (h : isSquare n D) {i' j' : ℕ} (hi' : i' < n) (hj' : j' < n) :
    getEntry (js.foldl (fun D j => fill_entry X D i j) D) i' j' =
      if i' = i ∧ j' ∈ js then eucl_dist (X.getD i []) (X.getD j' [])
      else getEntry D i' j' := by
  induction js generalizing D with
  | nil => simp
  | cons j js ih =>
    rw [List.foldl_cons, ih (isSquare_fill_entry h X i j)]
    by_cases hc : i' = i ∧ j' ∈ js
    · rw [if_pos hc, if_pos ⟨hc.1, List.mem_cons_of_mem j hc.2⟩]
    · rw [if_neg hc]
      by_cases hc2 : i' = i ∧ j' = j
      · obtain ⟨h1, h2⟩ := hc2
        subst h1
        subst h2
        rw [fill_entry, getEntry_setEntry_self h hi' hj',
          if_pos ⟨rfl, List.mem_cons_self j' js⟩]
      · have hne : i' ≠ i ∨ j' ≠ j := by tauto
        have hneg : ¬(i' = i ∧ j' ∈ j :: js) := by
          rintro ⟨h1, h2⟩
          rcases List.mem_cons.mp h2 with h3 | h3
          · exact hc2 ⟨h1, h3⟩
          · exact hc ⟨h1, h3⟩
        rw [fill_entry, getEntry_setEntry_ne hne, if_neg hneg]

theorem isSquare_foldl_rows {n : ℕ} (X : List Vec) (rows : List ℕ)
    (colOf : ℕ → List ℕ) {D : Mat} (h : isSquare n D) :
    isSquare n (rows.foldl
      (fun D i => (colOf i).foldl (fun D j => fill_entry X D i j) D) D) := by
  induction rows generalizing D with
  | nil => exact h
  | cons i rows ih => exact ih (isSquare_foldl_cols X i (colOf i) h)

theorem getEntry_foldl_rows (X : List Vec) (rows : List ℕ) (colOf : ℕ → List ℕ)
    {n : ℕ} {D : Mat} (h : isSquare n D) {i' j' : ℕ} (hi' : i' < n) (hj' : j' < n) :
    getEntry (rows.foldl
      (fun D i => (colOf i).foldl (fun D j => fill_entry X D i j) D) D) i' j' =
      if i' ∈ rows ∧ j' ∈ colOf i' then eucl_dist (X.getD i' []) (X.getD j' [])
      else getEntry D i' j' := by
  induction rows generalizing D with
  | nil => simp
  | cons i rows ih =>
    rw [List.foldl_cons, ih (isSquare_foldl_cols X i (colOf i) h)]
    by_cases hc : i' ∈ rows ∧ j' ∈ colOf i'
    · rw [if_pos hc, if_pos ⟨List.mem_cons_of_mem i hc.1, hc.2⟩]
    · rw [if_neg hc, getEntry_foldl_cols X i (colOf i) h hi' hj']
      by_cases hc2 : i' = i ∧ j' ∈ colOf i
      · have hpos : i' ∈ i :: rows ∧ j' ∈ colOf i' := by
          refine ⟨?_, ?_⟩
          · rw [hc2.1]; exact List.mem_cons_self i rows
          · rw [hc2.1]; exact hc2.2
        rw [if_pos hc2, if_pos hpos, hc2.1]
      · have hneg : ¬(i' ∈ i :: rows ∧ j' ∈ colOf i') := by
          rintro ⟨hmem, hcol⟩
          rcases List.mem_cons.mp hmem with heq | hmem'
          · exact hc2 ⟨heq, heq ▸ hcol⟩
          · exact hc ⟨hmem', hcol⟩
        rw [if_neg hc2, if_neg hneg]

theorem mat_ext {n : ℕ} {D E : Mat} (hD : isSquare n D) (hE : isSquare n E)
    (h : ∀ i < n, ∀ j < n, getEntry D i j = getEntry E i j) : D = E := by
  obtain ⟨hDlen, hDrow⟩ := hD
  obtain ⟨hElen, hErow⟩ := hE
  apply List.ext_getElem (by omega)
  intro i hi1 hi2
  have hrD : D[i].length = n := hDrow _ (List.getElem_mem hi1)
  have hrE : E[i].length = n := hErow _ (List.getElem_mem hi2)
  apply List.ext_getElem (by omega)
  intro j hj1 hj2
  have hij := h i (by omega) j (by omega)
  unfold getEntry at hij
  rw [List.getD_eq_getElem D [] hi1, List.getD_eq_getElem E [] hi2,
    List.getD_eq_getElem D[i] 0 (by omega), List.getD_eq_getElem E[i] 0 (by omega)] at hij
  exact hij

theorem isSquare_eucl_dist_matrix (X : List Vec) :
    isSquare X.length (eucl_dist_matrix X) :=
  isSquare_foldl_rows X (List.range X.length) (fun _ => List.range X.length)
    (isSquare_empty X.length)

theorem getEntry_eucl_dist_matrix (X : List Vec) {i j : ℕ}
    (hi : i < X.length) (hj : j < X.length) :
    getEntry (eucl_dist_matrix X) i j = eucl_dist (X.getD i []) (X.getD j []) := by
  have := getEntry_foldl_rows X (List.range X.length) (fun _ => List.range X.length)
    (isSquare_empty X.length) hi hj
  rw [if_pos ⟨List.mem_range.mpr hi, List.mem_range.mpr hj⟩] at this
  exact this

theorem sq_sum_zip_nonneg (x y : Vec) : 0 ≤ sq_sum_zip x y := by
  apply List.sum_nonneg
  intro q hq
  obtain ⟨p, _, rfl⟩ := List.mem_map.mp hq
  positivity

theorem sq_sum_zip_comm (x y : Vec) : sq_sum_zip x y = sq_sum_zip y x := by
  induction x generalizing y with
  | nil => cases y <;> rfl
  | cons a x ih =>
    cases y with
    | nil => rfl
    | cons b y =>
      simp only [sq_sum_zip, List.zip_cons_cons, List.map_cons, List.sum_cons] at ih ⊢
      rw [ih y]
      ring_nf

theorem sq_sum_zip_self (x : Vec) : sq_sum_zip x x = 0 := by
  induction x with
  | nil => rfl
  | cons a x ih =>
    simp only [sq_sum_zip, List.zip_cons_cons, List.map_cons, List.sum_cons] at ih ⊢
    rw [ih]
    ring

theorem eucl_dist_nonneg (x y : Vec) : 0 ≤ eucl_dist x y :=
  Real.sqrt_nonneg _

theorem eucl_dist_comm (x y : Vec) : eucl_dist x y = eucl_dist y x := by
  rw [eucl_dist, eucl_dist, sq_sum_zip_comm]

theorem eucl_dist_self (x : Vec) : eucl_dist x x = 0 := by
  rw [eucl_dist, sq_sum_zip_self]
  simp

theorem sq_sum_zip_eq_sum_range (x y : Vec) :
    sq_sum_zip x y =
      ∑ i ∈ Finset.range (min x.length y.length), (x.getD i 0 - y.getD i 0) ^ 2 := by
  induction x generalizing y with
  | nil => simp [sq_sum_zip]
  | cons a x ih =>
    cases y with
    | nil => simp [sq_sum_zip]
    | cons b y =>
      simp only [sq_sum_zip, List.zip_cons_cons, List.map_cons, List.sum_cons] at ih ⊢
      rw [ih y]
      have hmin : min (a :: x).length (b :: y).length = min x.length y.length + 1 := by
        simp [Nat.succ_min_succ]
      rw [hmin, Finset.sum_range_succ' ]
      simp only [List.getD_cons_succ, List.getD_cons_zero]
      ring

theorem length_cdist_row (X : List Vec) (k : ℕ) :
    (cdist_row X k).length = X.length := by
  simp [cdist_row]

theorem getD_cdist_row (X : List Vec) (k : ℕ) {j : ℕ} (hj : j < X.length) :
    (cdist_row X k).getD j 0 = eucl_dist (X.getD k []) (X.getD j []) := by
  rw [List.getD_eq_getElem _ _ (by simpa [length_cdist_row] using hj)]
  simp [cdist_row]

theorem isSquare_set_row {n : ℕ} {D : Mat} (h : isSquare n D) {r : List ℝ}
    (hr : r.length = n) (k : ℕ) : isSquare n (D.set k r) := by
  obtain ⟨hlen, hrow⟩ := h
  refine ⟨by simpa using hlen, ?_⟩
  intro s hs
  rcases List.mem_or_eq_of_mem_set hs with hmem | heq
  · exact hrow s hmem
  · rw [heq]; exact hr

theorem getEntry_set_row_self {D : Mat} {k : ℕ} (hk : k < D.length)
    (r : List ℝ) (j : ℕ) : getEntry (D.set k r) k j = r.getD j 0 := by
  unfold getEntry
  rw [getD_set_self D k r [] hk]

theorem getEntry_set_row_ne {D : Mat} {k i' : ℕ} (h : i' ≠ k)
    (r : List ℝ) (j : ℕ) : getEntry (D.set k r) i' j = getEntry D i' j := by
  unfold getEntry
  rw [getD_set_ne D k i' r [] h]

theorem isSquare_foldl_set_cdist (X : List Vec) (ks : List ℕ) {D : Mat}
    (h : isSquare X.length D) :
    isSquare X.length (ks.foldl (fun D k => D.set k (cdist_row X k)) D) := by
  induction ks generalizing D with
  | nil => exact h
  | cons k ks ih => exact ih (isSquare_set_row h (length_cdist_row X k) k)

theorem getEntry_foldl_set_cdist (X : List Vec) (ks : List ℕ) {D : Mat}
    (h : isSquare X.length D) {i' j' : ℕ} (hi' : i' < X.length) (hj' : j' < X.length) :
    getEntry (ks.foldl (fun D k => D.set k (cdist_row X k)) D) i' j' =
      if i' ∈ ks then eucl_dist (X.getD i' []) (X.getD j' [])
      else getEntry D i' j' := by
  induction ks generalizing D with
  | nil => simp
  | cons k ks ih =>
    rw [List.foldl_cons, ih (isSquare_set_row h (length_cdist_row X k) k)]
    by_cases hc : i' ∈ ks
    · rw [if_pos hc, if_pos (List.mem_cons_of_mem k hc)]
    · rw [if_neg hc]
      rcases eq_or_ne i' k with rfl | hne
      · rw [getEntry_set_row_self (by rw [h.1]; exact hi') , getD_cdist_row X i' hj',
          if_pos (List.mem_cons_self i' ks)]
      · rw [getEntry_set_row_ne hne, if_neg (by
          simp only [List.mem_cons]
          tauto)]

theorem isSquare_task_4 (X : List Vec) (i c : ℕ) {D : Mat}
    (h : isSquare X.length D) : isSquare X.length (task_4 D X i c) :=
  isSquare_foldl_set_cdist X _ h

theorem getEntry_task_4 (X : List Vec) (i c : ℕ) {D : Mat}
    (h : isSquare X.length D) {i' j' : ℕ} (hi' : i' < X.length) (hj' : j' < X.length) :
    getEntry (task_4 D X i c) i' j' =
      if i' ∈ List.range' i (min (i + c) X.length - i)
      then eucl_dist (X.getD i' []) (X.getD j' [])
      else getEntry D i' j' :=
  getEntry_foldl_set_cdist X _ h hi' hj'

theorem isSquare_foldl_chunks (X : List Vec) (starts : List ℕ) (c : ℕ) {D : Mat}
    (h : isSquare X.length D) :
    isSquare X.length (starts.foldl (fun D i => task_4 D X i c) D) := by
  induction starts generalizing D with
  | nil => exact h
  | cons s starts ih => exact ih (isSquare_task_4 X s c h)

theorem getEntry_foldl_chunks (X : List Vec) (starts : List ℕ) (c : ℕ) {D : Mat}
    (h : isSquare X.length D) {i' j' : ℕ} (hi' : i' < X.length) (hj' : j' < X.length) :
    getEntry (starts.foldl (fun D i => task_4 D X i c) D) i' j' =
      if ∃ s ∈ starts, i' ∈ List.range' s (min (s + c) X.length - s)
      then eucl_dist (X.getD i' []) (X.getD j' [])
      else getEntry D i' j' := by
  induction starts generalizing D with
  | nil => simp
  | cons s starts ih =>
    rw [List.foldl_cons, ih (isSquare_task_4 X s c h)]
    by_cases hc : ∃ t ∈ starts, i' ∈ List.range' t (min (t + c) X.length - t)
    · rw [if_pos hc]
      obtain ⟨t, ht, hmem⟩ := hc
      rw [if_pos ⟨t, List.mem_cons_of_mem s ht, hmem⟩]
    · rw [if_neg hc, getEntry_task_4 X s c h hi' hj']
      by_cases hc2 : i' ∈ List.range' s (min (s + c) X.length - s)
      · rw [if_pos hc2, if_pos ⟨s, List.mem_cons_self s starts, hc2⟩]
      · have hneg : ¬∃ t ∈ s :: starts, i' ∈ List.range' t (min (t + c) X.length - t) := by
          rintro ⟨t, htmem, hmem⟩
          rcases List.mem_cons.mp htmem with rfl | ht
          · exact hc2 hmem
          · exact hc ⟨t, ht, hmem⟩
        rw [if_neg hc2, if_neg hneg]

theorem chunk_coverage {n c i : ℕ} (hc : 0 < c) (hi : i < n) :
    ∃ s ∈ rangeStep n c, i ∈ List.range' s (min (s + c) n - s) := by
  refine ⟨i / c * c, ?_, ?_⟩
  · rw [rangeStep, List.mem_map]
    refine ⟨i / c, List.mem_range.mpr ?_, rfl⟩
    have h1 : i / c ≤ (n - 1) / c := Nat.div_le_div_right (by omega)
    have h2 : (n + c - 1) / c = (n - 1) / c + 1 := by
      have : n + c - 1 = (n - 1) + c := by omega
      rw [this, Nat.add_div_right _ hc]
    omega
  · rw [List.mem_range'_1]
    have h1 : i / c * c ≤ i := Nat.div_mul_le_self i c
    have h2 : i < i / c * c + c := Nat.lt_div_mul_add hc
    refine ⟨h1, ?_⟩
    rcases le_total (i / c * c + c) n with hle | hle
    · rw [min_eq_left hle]; omega
    · rw [min_eq_right hle]; omega

theorem getD_take {α : Type} (l : List α) (m i : ℕ) (d : α) (h : i < m) :
    (l.take m).getD i d = l.getD i d := by
  induction l generalizing m i with
  | nil => simp
  | cons a l ih =>
    cases m with
    | zero => omega
    | succ m =>
      cases i with
      | zero => rfl
      | succ i => exact ih m i (by omega)

theorem sq_sum_zip_take (x y : Vec) :
    sq_sum_zip (x.take (min x.length y.length)) (y.take (min x.length y.length)) =
      sq_sum_zip x y := by
  rw [sq_sum_zip_eq_sum_range, sq_sum_zip_eq_sum_range]
  have hx : (x.take (min x.length y.length)).length = min x.length y.length := by
    rw [List.length_take]
    omega
  have hy : (y.take (min x.length y.length)).length = min x.length y.length := by
    rw [List.length_take]
    omega
  rw [hx, hy, min_self]
  apply Finset.sum_congr rfl
  intro i hi
  have hi' : i < min x.length y.length := Finset.mem_range.mp hi
  rw [getD_take x _ i 0 hi', getD_take y _ i 0 hi']

/-- The squared sum cast to the reals, as an index-wise finite sum. -/
theorem sq_sum_zip_cast_eq (x y : Vec) :
    ((sq_sum_zip x y : ℚ) : ℝ) =
      ∑ i ∈ Finset.range (min x.length y.length),
        ((x.getD i 0 : ℝ) - (y.getD i 0 : ℝ)) ^ 2 := by
  rw [sq_sum_zip_eq_sum_range]
  push_cast
  rfl

/-- Claim C1 (amended): for every dataset of equal-length vectors and every
worker count `n_jobs` with `0 < n_jobs ≤ n`, whether or not `n_jobs` divides
`n` evenly (in particular for `n_jobs = 1` and `n_jobs = n`), the partitioned
builder `eucl_dist_matrix_thr_4` returns exactly the matrix of the sequential
builder `eucl_dist_matrix`.  (As stated, "every worker/partition count" fails:
when `n_jobs > n` the chunk size `n // n_jobs` is `0` and `range(0, n, 0)`
raises, see the counterexample.) -/
theorem thr_4_refines_sequential (X : List Vec) (n_jobs : ℕ)
    (hu : uniformLen X) (h1 : 0 < n_jobs) (h2 : n_jobs ≤ X.length) :
    eucl_dist_matrix_thr_4 X n_jobs = some (eucl_dist_matrix X) := by
  have hc : 0 < X.length / n_jobs := Nat.div_pos h2 h1
  rw [eucl_dist_matrix_thr_4, if_neg (by omega)]
  congr 1
  have hsq : isSquare X.length ((rangeStep X.length (X.length / n_jobs)).foldl
      (fun D i => task_4 D X i (X.length / n_jobs)) (empty_square_matrix X.length)) :=
    isSquare_foldl_chunks X _ _ (isSquare_empty X.length)
  apply mat_ext hsq (isSquare_eucl_dist_matrix X)
  intro i hi j hj
  rw [getEntry_foldl_chunks X _ _ (isSquare_empty X.length) hi hj,
    if_pos (chunk_coverage hc hi), getEntry_eucl_dist_matrix X hi hj]

/-- Witness for C1: a 3-row dataset split over 2 workers (a count that does
not divide 3) gives the sequential matrix. -/
theorem thr_4_refines_sequential_witness :
    uniformLen [[(0 : ℚ), 0], [3, 4], [1, 2]] ∧ 0 < 2 ∧
    2 ≤ ([[(0 : ℚ), 0], [3, 4], [1, 2]] : List Vec).length ∧
    eucl_dist_matrix_thr_4 [[(0 : ℚ), 0], [3, 4], [1, 2]] 2 =
      some (eucl_dist_matrix [[(0 : ℚ), 0], [3, 4], [1, 2]]) :=
  ⟨by decide, by decide, by decide,
    thr_4_refines_sequential _ 2 (by decide) (by decide) (by decide)⟩

/-- Counterexample to C1 as stated: with one row and worker count 2 the chunk
size floors to `0`, so the partitioned builder fails (`range(0, n, 0)` raises
`ValueError`) instead of returning the sequential matrix. -/
theorem thr_4_more_jobs_than_rows_fails :
    eucl_dist_matrix_thr_4 [[(0 : ℚ)]] 2 ≠ some (eucl_dist_matrix [[(0 : ℚ)]]) := by
  rw [eucl_dist_matrix_thr_4, if_pos (by decide)]
  exact fun h => Option.noConfusion h

/-- Claim C2: the sequential builder returns a square `n × n` structure whose
entry at `(i, j)` is the distance between rows `i` and `j`, for all
`0 ≤ i, j < n`. -/
theorem sequential_matrix_entries (X : List Vec) (i j : ℕ)
    (hi : i < X.length) (hj : j < X.length) :
    (eucl_dist_matrix X).length = X.length ∧
    (∀ r ∈ eucl_dist_matrix X, r.length = X.length) ∧
    getEntry (eucl_dist_matrix X) i j = eucl_dist (X.getD i []) (X.getD j []) :=
  ⟨(isSquare_eucl_dist_matrix X).1, (isSquare_eucl_dist_matrix X).2,
    getEntry_eucl_dist_matrix X hi hj⟩

/-- Witness for C2 on the two-row dataset `[[0,0],[3,4]]` at entry `(0, 1)`. -/
theorem sequential_matrix_entries_witness :
    0 < ([[(0 : ℚ), 0], [3, 4]] : List Vec).length ∧
    1 < ([[(0 : ℚ), 0], [3, 4]] : List Vec).length ∧
    ((eucl_dist_matrix [[(0 : ℚ), 0], [3, 4]]).length =
        ([[(0 : ℚ), 0], [3, 4]] : List Vec).length ∧
      (∀ r ∈ eucl_dist_matrix [[(0 : ℚ), 0], [3, 4]],
        r.length = ([[(0 : ℚ), 0], [3, 4]] : List Vec).length) ∧
      getEntry (eucl_dist_matrix [[(0 : ℚ), 0], [3, 4]]) 0 1 =
        eucl_dist (([[(0 : ℚ), 0], [3, 4]] : List Vec).getD 0 [])
          (([[(0 : ℚ), 0], [3, 4]] : List Vec).getD 1 [])) :=
  ⟨by decide, by decide, sequential_matrix_entries _ 0 1 (by decide) (by decide)⟩

/-- Claim C3: on two vectors of equal length the distance function returns a
non-negative scalar equal to the square root of the sum of the squared
elementwise differences. -/
theorem eucl_dist_spec (x y : Vec) (h : x.length = y.length) :
    0 ≤ eucl_dist x y ∧
    eucl_dist x y =
      Real.sqrt (∑ i ∈ Finset.range x.length,
        ((x.getD i 0 : ℝ) - (y.getD i 0 : ℝ)) ^ 2) := by
  refine ⟨Real.sqrt_nonneg _, ?_⟩
  have hmin : min x.length y.length = x.length := by omega
  rw [eucl_dist, sq_sum_zip_cast_eq, hmin]

/-- Witness for C3 on the pair `[0,0]`, `[3,4]`. -/
theorem eucl_dist_spec_witness :
    ([(0 : ℚ), 0] : Vec).length = ([3, 4] : Vec).length ∧
    (0 ≤ eucl_dist [(0 : ℚ), 0] [3, 4] ∧
      eucl_dist [(0 : ℚ), 0] [3, 4] =
        Real.sqrt (∑ i ∈ Finset.range ([(0 : ℚ), 0] : Vec).length,
          ((([(0 : ℚ), 0] : Vec).getD i 0 : ℝ) -
            (([3, 4] : Vec).getD i 0 : ℝ)) ^ 2)) :=
  ⟨by decide, eucl_dist_spec _ _ (by decide)⟩

/-- Claim C4: the matrix of the sequential builder is symmetric:
`matrix[i][j] = matrix[j][i]` at all valid indices. -/
theorem matrix_symmetric (X : List Vec) (i j : ℕ)
    (hi : i < X.length) (hj : j < X.length) :
    getEntry (eucl_dist_matrix X) i j = getEntry (eucl_dist_matrix X) j i := by
  rw [getEntry_eucl_dist_matrix X hi hj, getEntry_eucl_dist_matrix X hj hi,
    eucl_dist_comm]

/-- Witness for C4 at entry `(0, 1)` of the matrix of `[[0,0],[3,4]]`. -/
theorem matrix_symmetric_witness :
    0 < ([[(0 : ℚ), 0], [3, 4]] : List Vec).length ∧
    1 < ([[(0 : ℚ), 0], [3, 4]] : List Vec).length ∧
    getEntry (eucl_dist_matrix [[(0 : ℚ), 0], [3, 4]]) 0 1 =
      getEntry (eucl_dist_matrix [[(0 : ℚ), 0], [3, 4]]) 1 0 :=
  ⟨by decide, by decide, matrix_symmetric _ 0 1 (by decide) (by decide)⟩

/-- Claim C5: the matrix of the sequential builder has a zero diagonal:
`matrix[i][i] = 0` at every valid index. -/
theorem matrix_zero_diagonal (X : List Vec) (i : ℕ) (hi : i < X.length) :
    getEntry (eucl_dist_matrix X) i i = 0 := by
  rw [getEntry_eucl_dist_matrix X hi hi, eucl_dist_self]

/-- Witness for C5 at entry `(1, 1)` of the matrix of `[[0,0],[3,4]]`. -/
theorem matrix_zero_diagonal_witness :
    1 < ([[(0 : ℚ), 0], [3, 4]] : List Vec).length ∧
    getEntry (eucl_dist_matrix [[(0 : ℚ), 0], [3, 4]]) 1 1 = 0 :=
  ⟨by decide, matrix_zero_diagonal _ 1 (by decide)⟩

/-- Claim C6: the result of the fill is independent of the visit order: for
any permutation of the row order and, per row, any permutation of the column
order (each ordered pair visited exactly once), the shuffled builder returns
the sequential matrix. -/
theorem shuffled_order_irrelevant (X : List Vec) (rowOrder : List ℕ)
    (colOrder : ℕ → List ℕ) (hrow : rowOrder.Perm (List.range X.length))
    (hcol : ∀ i, (colOrder i).Perm (List.range X.length)) :
    eucl_dist_matrix_shuffled X rowOrder colOrder = eucl_dist_matrix X := by
  have hsq : isSquare X.length (eucl_dist_matrix_shuffled X rowOrder colOrder) :=
    isSquare_foldl_rows X rowOrder colOrder (isSquare_empty X.length)
  apply mat_ext hsq (isSquare_eucl_dist_matrix X)
  intro i hi j hj
  have hent : getEntry (eucl_dist_matrix_shuffled X rowOrder colOrder) i j =
      if i ∈ rowOrder ∧ j ∈ colOrder i then eucl_dist (X.getD i []) (X.getD j [])
      else getEntry (empty_square_matrix X.length) i j :=
    getEntry_foldl_rows X rowOrder colOrder (isSquare_empty X.length) hi hj
  rw [hent, if_pos ⟨hrow.mem_iff.mpr (List.mem_range.mpr hi),
    (hcol i).mem_iff.mpr (List.mem_range.mpr hj)⟩,
    getEntry_eucl_dist_matrix X hi hj]

/-- Witness for C6: filling rows and columns in the reversed order `[1, 0]`
reproduces the sequential matrix of `[[0,0],[3,4]]`. -/
theorem shuffled_order_irrelevant_witness :
    ([1, 0] : List ℕ).Perm (List.range ([[(0 : ℚ), 0], [3, 4]] : List Vec).length) ∧
    eucl_dist_matrix_shuffled [[(0 : ℚ), 0], [3, 4]] [1, 0] (fun _ => [1, 0]) =
      eucl_dist_matrix [[(0 : ℚ), 0], [3, 4]] :=
  ⟨by decide,
    shuffled_order_irrelevant _ [1, 0] (fun _ => [1, 0]) (by decide)
      (fun _ => show ([1, 0] : List ℕ).Perm
        (List.range ([[(0 : ℚ), 0], [3, 4]] : List Vec).length) from by decide)⟩

/-- Counterexample to C7 as stated: on the mismatched pair `[0]` and `[3,4]`
the distance function does not fail; it returns the ordinary scalar `3`
(the distance over the common one-element prefix). -/
theorem eucl_dist_mismatched_lengths_value :
    eucl_dist [(0 : ℚ)] [3, 4] = 3 := by
  rw [eucl_dist]
  have h9 : sq_sum_zip [(0 : ℚ)] [3, 4] = 9 := by
    simp [sq_sum_zip]
    norm_num
  rw [h9, show ((9 : ℚ) : ℝ) = 3 ^ 2 by norm_num]
  exact Real.sqrt_sq (by norm_num)

/-- Claim C7 (amended): on two vectors of differing lengths the distance
function does not fail: it returns the ordinary non-negative distance of the
common prefix of length `min |x| |y|`, the trailing elements of the longer
vector being ignored. -/
theorem eucl_dist_mismatched_truncates (x y : Vec) (h : x.length ≠ y.length) :
    0 ≤ eucl_dist x y ∧
    eucl_dist x y =
      eucl_dist (x.take (min x.length y.length)) (y.take (min x.length y.length)) := by
  refine ⟨Real.sqrt_nonneg _, ?_⟩
  rw [eucl_dist, eucl_dist, sq_sum_zip_take]

/-- Witness for C7 (amended) on the pair `[0]`, `[3,4]`. -/
theorem eucl_dist_mismatched_truncates_witness :
    ([(0 : ℚ)] : Vec).length ≠ ([3, 4] : Vec).length ∧
    (0 ≤ eucl_dist [(0 : ℚ)] [3, 4] ∧
      eucl_dist [(0 : ℚ)] [3, 4] =
        eucl_dist (([(0 : ℚ)] : Vec).take
            (min ([(0 : ℚ)] : Vec).length ([3, 4] : Vec).length))
          (([3, 4] : Vec).take
            (min ([(0 : ℚ)] : Vec).length ([3, 4] : Vec).length))) :=
  ⟨by decide, eucl_dist_mismatched_truncates _ _ (by decide)⟩

/-- Claim C10: the distance function is total on all pairs of vectors,
including pairs of differing lengths: it returns the square root of the sum
of squared differences over the first `min |x| |y|` components, silently
ignoring the trailing elements of the longer vector. -/
theorem eucl_dist_truncates_to_min (x y : Vec) :
    eucl_dist x y =
      Real.sqrt (∑ i ∈ Finset.range (min x.length y.length),
        ((x.getD i 0 : ℝ) - (y.getD i 0 : ℝ)) ^ 2) := by
  rw [eucl_dist, sq_sum_zip_cast_eq]

/-- Claim C8: on `[[0,0],[3,4]]` the sequential builder returns
`[[0,5],[5,0]]`, and on `[[1,1,1]]` it returns `[[0]]`. -/
theorem example_matrices :
    eucl_dist_matrix [[(0 : ℚ), 0], [3, 4]] = [[0, 5], [5, 0]] ∧
    eucl_dist_matrix [[(1 : ℚ), 1, 1]] = [[0]] := by
  have h05 : eucl_dist [(0 : ℚ), 0] [3, 4] = 5 := by
    rw [eucl_dist]
    have h25 : sq_sum_zip [(0 : ℚ), 0] [3, 4] = 25 := by
      simp [sq_sum_zip]
      norm_num
    rw [h25, show ((25 : ℚ) : ℝ) = 5 ^ 2 by norm_num]
    exact Real.sqrt_sq (by norm_num)
  have h50 : eucl_dist [(3 : ℚ), 4] [0, 0] = 5 := by
    rw [eucl_dist_comm]
    exact h05
  constructor
  · refine mat_ext (isSquare_eucl_dist_matrix _) ⟨rfl, ?_⟩ ?_
    · intro r hr
      rcases List.mem_cons.mp hr with rfl | hr
      · rfl
      · rcases List.mem_cons.mp hr with rfl | hr
        · rfl
        · cases hr
    · intro i hi j hj
      have hi2 : i < 2 := hi
      have hj2 : j < 2 := hj
      clear hi hj
      interval_cases i <;> interval_cases j
      · rw [getEntry_eucl_dist_matrix _ (by decide) (by decide)]
        exact eucl_dist_self _
      · rw [getEntry_eucl_dist_matrix _ (by decide) (by decide)]
        exact h05
      · rw [getEntry_eucl_dist_matrix _ (by decide) (by decide)]
        exact h50
      · rw [getEntry_eucl_dist_matrix _ (by decide) (by decide)]
        exact eucl_dist_self _
  · refine mat_ext (isSquare_eucl_dist_matrix _) ⟨rfl, ?_⟩ ?_
    · intro r hr
      rcases List.mem_cons.mp hr with rfl | hr
      · rfl
      · cases hr
    · intro i hi j hj
      have hi1 : i < 1 := hi
      have hj1 : j < 1 := hj
      clear hi hj
      interval_cases i
      interval_cases j
      rw [getEntry_eucl_dist_matrix _ (by decide) (by decide)]
      exact eucl_dist_self _

/-- Counterexample to C9 as stated: `eucl_dist_matrix_p` fails on the
nonempty, well-formed one-row dataset `[[0]]` (chunk size `1 // 8 = 0`, so
`range(0, n, 0)` raises `ValueError`) — an error condition beyond mismatched
lengths and the empty dataset. -/
theorem p_builder_fails_on_small_nonempty :
    eucl_dist_matrix_p [[(0 : ℚ)]] = none ∧
    ([[(0 : ℚ)]] : List Vec) ≠ [] ∧ uniformLen [[(0 : ℚ)]] :=
  ⟨rfl, by decide, by decide⟩

/-- Claim C9 (amended): besides the unvalidated mismatched-length and
empty-dataset conditions, the process-based partitioned builder
`eucl_dist_matrix_p` has one further failure mode: it fails exactly when the
dataset has fewer than 8 rows (the chunk size `n // 8` floors to zero). -/
theorem p_builder_none_iff (X : List Vec) :
    eucl_dist_matrix_p X = none ↔ X.length < 8 := by
  rw [eucl_dist_matrix_p]
  rcases lt_or_le X.length 8 with hlt | hle
  · rw [if_pos ((Nat.div_eq_zero_iff (by norm_num)).mpr hlt)]
    exact ⟨fun _ => hlt, fun _ => rfl⟩
  · rw [if_neg (by rw [Nat.div_eq_zero_iff (by norm_num)]; omega)]
    constructor
    · intro hc
      exact absurd hc (by simp)
    · intro hc
      exact absurd hc (by omega)

end Dv516
